import Mathlib

/-!
Shallow embedding of the taozen graph-execution engine
(src/src/core/Tao.ts and src/src/core/Zen.ts, types from src/core/type.ts).

Conventions:
* JS numbers that only ever hold non-negative integers (delays, timeouts,
  timestamps, attempt counters) are modelled as `Nat`.
* A rejected promise / thrown `Error` is modelled as `Except.error msg` where
  `msg` is the JS error's message string.
* The single-threaded cooperative scheduler is modelled by sequentialising the
  `Promise.all` of a batch; claims proved below do not depend on the
  interleaving order inside a batch.
* The `AbortSignal` is modelled as a predicate `abortedAt : Nat → Bool` giving
  the signal state observed at the start of attempt `n` (attempt `0` is the
  check at the top of `Zen._execute`).
-/

/-- Step status, from `ZenStatus` in type.ts. -/
inductive ZenStatus
  | pending
  | running
  | completed
  | failed
  | cancelled
deriving DecidableEq, Repr

/-- Graph status, from `TaoStatus` in type.ts. -/
inductive TaoStatus
  | pending
  | running
  | completed
  | failed
  | cancelled
  | paused
deriving DecidableEq, Repr

/-- Retry configuration, from `ZenRetryConfig` in type.ts. -/
structure ZenRetryConfig where
  maxAttempts : Nat
  initialDelay : Nat
  maxDelay : Nat
  backoffFactor : Nat
deriving DecidableEq, Repr

/-- Step configuration, from `ZenConfig` in type.ts; the `onCancel` callback is
modelled by its presence. -/
structure ZenConfig where
  retry : Option ZenRetryConfig := none
  timeout : Option Nat := none
  hasOnCancel : Bool := false
deriving DecidableEq, Repr

/-- The per-step state held by class `Zen` (src/src/core/Zen.ts): identity,
dependency ids, status, result value, error message, timestamps, config. -/
structure ZenM where
  id : String
  name : String
  deps : List String := []
  status : ZenStatus := .pending
  value : Option Nat := none
  error : Option String := none
  startTime : Option Nat := none
  endTime : Option Nat := none
  config : ZenConfig := {}
deriving DecidableEq, Repr

/-- The `result` getter of `Zen` (Zen.ts lines 37-40): returns the stored value
only when the status is `completed`, otherwise `undefined`. -/
def ZenM.result (z : ZenM) : Option Nat :=
  if z.status = .completed then z.value else none

/-- Model of `Zen.reset` (Zen.ts lines 323-329): status back to pending; result, error
and both timestamps cleared.  Identity (`id`, `name`), dependencies and
configuration are untouched. -/
def ZenM.reset (z : ZenM) : ZenM :=
  { z with status := .pending, value := none, error := none,
           startTime := none, endTime := none }

/-- Model of `Zen.handleZenError` (Zen.ts lines 381-398): a step that failed with a
cancellation message ends `cancelled`, any other error ends `failed`. -/
def statusAfterError (msg : String) : ZenStatus :=
  if msg = "Task cancelled" ∨ msg = "Task cancelled while paused" then
    .cancelled
  else
    .failed

/-- Status a step ends in for a given execution outcome: `executeCore` marks a
successful step `completed`; errors go through `handleZenError`. -/
def statusAfterOutcome (r : Except String Nat) : ZenStatus :=
  match r with
  | .ok _ => .completed
  | .error e => statusAfterError e

deriving instance DecidableEq for Except

/-- Observable trace of `Zen.executeWithRetry` (Zen.ts lines 188-224):
the final outcome, the emitted `zen:retry` events (attempt, delay, error
message), the backoff delays that were fully waited out, and the attempts at
which the wrapped executor was actually invoked. -/
structure RetryTrace where
  result : Except String Nat
  events : List (Nat × Nat × String)
  waits : List Nat
  invoked : List Nat
deriving DecidableEq, Repr

/-- The backoff delay computed between attempts (Zen.ts lines 204-207):
`min(initialDelay * backoffFactor ^ (attempt - 1), maxDelay)`. -/
def retryDelay (rc : ZenRetryConfig) (attempt : Nat) : Nat :=
  min (rc.initialDelay * rc.backoffFactor ^ (attempt - 1)) rc.maxDelay

/-- One call of `Zen.executeCore` (Zen.ts lines 125-179) at a given attempt:
if the abort signal already fired the call rejects with `Task cancelled`
before invoking the wrapped executor; otherwise the executor runs and its
outcome is returned.  The second component records whether the wrapped
executor was invoked. -/
def executeCore (abortedAt : Nat → Bool) (att : Nat → Except String Nat)
    (attempt : Nat) : Except String Nat × Bool :=
  if abortedAt attempt then (.error "Task cancelled", false)
  else (att attempt, true)

/-- The retry loop of `Zen.executeWithRetry` (Zen.ts lines 196-223), unrolled
on the remaining fuel `maxAttempts - attempt + 1`.  On success the loop
returns; on error it breaks at the last attempt (surfacing the last error),
otherwise it emits a `zen:retry` event and waits the full backoff delay —
the wait in the source is `await new Promise(r => setTimeout(r, delay))`
with no abort listener, so the wait always completes.  The fuel-0 base case
models the degenerate `maxAttempts = 0` loop (which throws the undefined
`lastError`). -/
def retryLoop (rc : ZenRetryConfig) (abortedAt : Nat → Bool)
    (att : Nat → Except String Nat) : String → Nat → Nat → RetryTrace
  | lastErr, _, 0 => ⟨.error lastErr, [], [], []⟩
  | _, attempt, fuel + 1 =>
    match executeCore abortedAt att attempt with
    | (.ok v, inv) => ⟨.ok v, [], [], if inv then [attempt] else []⟩
    | (.error e, inv) =>
      let invL : List Nat := if inv then [attempt] else []
      if attempt = rc.maxAttempts then ⟨.error e, [], [], invL⟩
      else
        let d := retryDelay rc attempt
        let rest := retryLoop rc abortedAt att e (attempt + 1) fuel
        ⟨rest.result, (attempt, d, e) :: rest.events, d :: rest.waits,
         invL ++ rest.invoked⟩

/-- Model of `Zen.executeWithRetry` (Zen.ts lines 188-224): run the retry loop from
attempt 1.  The loop runs at most `maxAttempts` iterations. -/
def executeWithRetry (rc : ZenRetryConfig) (abortedAt : Nat → Bool)
    (att : Nat → Except String Nat) : RetryTrace :=
  retryLoop rc abortedAt att "Unknown" 1 rc.maxAttempts

/-- Model of `Zen.executeWithTimeout` (Zen.ts lines 232-270): race `executeCore`
against a timer of `t` ms (and against the abort signal).  The timed attempt
is given by its duration and outcome; the executor wins the race exactly when
its duration is below the timeout. -/
def executeWithTimeout (name : String) (t : Nat) (abortedAt : Nat → Bool)
    (att : Nat → Nat × Except String Nat) : Except String Nat :=
  if abortedAt 1 then .error "Task cancelled"
  else
    let a := att 1
    if a.1 < t then a.2
    else .error s!"Zen {name} timed out after {t}ms"

/-- The policy dispatch of `Zen._execute` (Zen.ts lines 96-109): a configured
retry policy is checked first and routes to `executeWithRetry`, which calls
`executeCore` directly — the timed race of `executeWithTimeout` is only
reached when no retry policy is present (and, by JS truthiness of
`this.config.timeout`, only for a non-zero timeout). -/
def zenPolicyExec (name : String) (cfg : ZenConfig) (abortedAt : Nat → Bool)
    (att : Nat → Nat × Except String Nat) : Except String Nat :=
  match cfg.retry with
  | some rc => (executeWithRetry rc abortedAt (fun i => (att i).2)).result
  | none =>
    match cfg.timeout with
    | some t =>
      if 0 < t then executeWithTimeout name t abortedAt att
      else (executeCore abortedAt (fun i => (att i).2) 1).1
    | none => (executeCore abortedAt (fun i => (att i).2) 1).1

/-- One edge of the dependency graph: the step with id `a` declares the step
with id `b` as a dependency (`b ∈ deps(a)`). -/
def hasEdge (zens : List (String × List String)) (a b : String) : Prop :=
  ∃ z ∈ zens, z.1 = a ∧ b ∈ z.2

/-- A dependency cycle: a nonempty list of step ids in which every element has
an edge to the next one, wrapping around from the last back to the first. -/
def IsCycle (zens : List (String × List String)) (c : List String) : Prop :=
  c ≠ [] ∧ List.Chain' (hasEdge zens) (c ++ [c.head!])

/-- The batch assembled by one iteration of `Tao.getExecutionOrder`
(Tao.ts lines 838-843): the ids of all steps not yet visited whose
dependencies are all visited. -/
def assignable (zens : List (String × List String)) (visited : List String) :
    List String :=
  (zens.filter (fun z => decide (z.1 ∉ visited ∧ ∀ d ∈ z.2, d ∈ visited))).map
    Prod.fst

/-- The not-yet-visited steps. The loop guard `visited.size < this.zens.size`
of `Tao.getExecutionOrder` holds exactly when this list is nonempty (visited
only ever receives step ids, and the step map has unique keys). -/
def unassigned (zens : List (String × List String)) (visited : List String) :
    List (String × List String) :=
  zens.filter (fun z => decide (z.1 ∉ visited))

/-- The while loop of `Tao.getExecutionOrder` (Tao.ts lines 832-857):
repeatedly collect the currently assignable steps into the next batch; an
empty batch while steps remain unvisited means a cycle and throws
`Circular dependency detected`.  Terminates because each successful
iteration visits at least one more step. -/
def getExecutionOrderAux (zens : List (String × List String)) :
    List String → Except String (List (List String))
  | visited =>
    if (unassigned zens visited).isEmpty then .ok []
    else
      if h : (assignable zens visited).isEmpty then
        .error "Circular dependency detected"
      else
        match getExecutionOrderAux zens (visited ++ assignable zens visited)
          with
        | .ok rest => .ok (assignable zens visited :: rest)
        | .error e => .error e
termination_by visited => (unassigned zens visited).length
decreasing_by
  simp only [List.isEmpty_iff] at h
  obtain ⟨a, ha⟩ := List.exists_mem_of_ne_nil _ h
  obtain ⟨z, hz, rfl⟩ := List.mem_map.mp ha
  have hz2 := List.mem_filter.mp hz
  have hprop := of_decide_eq_true hz2.2
  have hzu : z ∈ unassigned zens visited := by
    refine List.mem_filter.mpr ⟨hz2.1, ?_⟩
    simp [unassigned, hprop.1]
  have key : unassigned zens (visited ++ assignable zens visited)
      = (unassigned zens visited).filter
          (fun w => decide (w.1 ∉ visited ++ assignable zens visited)) := by
    unfold unassigned
    rw [List.filter_filter]
    apply List.filter_congr
    intro w _
    by_cases hw : w.1 ∈ visited <;> simp [hw, List.mem_append]
  rw [key]
  apply List.length_filter_lt_length_iff_exists.mpr
  refine ⟨z, hzu, ?_⟩
  simp [List.mem_append, ha]

/-- Model of `Tao.getExecutionOrder`: the loop starts with an empty visited set. -/
def getExecutionOrder (zens : List (String × List String)) :
    Except String (List (List String)) :=
  getExecutionOrderAux zens []

/-- Look up a step by id in a list of steps (`Map.get` on `Tao.zens`). -/
def lookupZen (zens : List ZenM) (zid : String) : Option ZenM :=
  zens.find? (fun w => decide (w.id = zid))

/-- Model of `Zen.waitForDependencies` (Zen.ts lines 276-292): walk the declared
dependency ids in order; a missing sibling rethrows `Tao.getZenById`'s
`Zen {id} not found`; a sibling that is not `completed` throws
`Dependency {name} not completed`; otherwise collect `(id, result)` pairs. -/
def waitForDependencies (siblings : List ZenM) :
    List String → Except String (List (String × Option Nat))
  | [] => .ok []
  | d :: rest =>
    match lookupZen siblings d with
    | none => .error s!"Zen {d} not found"
    | some dz =>
      if dz.status = .completed then
        match waitForDependencies siblings rest with
        | .ok acc => .ok ((d, dz.result) :: acc)
        | .error e => .error e
      else .error s!"Dependency {dz.name} not completed"

/-- Model of `Zen._execute` (Zen.ts lines 73-117) as a state transformer on the step:
an already-fired signal throws `Zen cancelled` before anything is touched;
otherwise the step turns `running`, stamps its start time and clears
result/error, resolves its dependencies (failing the step on a dependency
error), then runs the configured policy; the final status follows
`executeCore` / `handleZenError`, and the end time is stamped in the
`finally` block.  Events are not tracked here. -/
def ZenM.executeM (z : ZenM) (siblings : List ZenM) (abortedAt : Nat → Bool)
    (att : Nat → Nat × Except String Nat) (now : Nat) :
    ZenM × Except String Nat :=
  if abortedAt 0 then (z, .error "Zen cancelled")
  else
    let z1 := { z with status := .running, startTime := some now,
                       value := none, error := none }
    match waitForDependencies siblings z.deps with
    | .error e =>
      ({ z1 with status := statusAfterError e, error := some e,
                 endTime := some now }, .error e)
    | .ok _ =>
      match zenPolicyExec z.name z.config abortedAt att with
      | .ok v =>
        ({ z1 with status := .completed, value := some v,
                   endTime := some now }, .ok v)
      | .error e =>
        ({ z1 with status := statusAfterError e, error := some e,
                   endTime := some now }, .error e)

/-- Model of `Tao.handleZenError` (Tao.ts lines 1165-1203) on the graph status: a
cancellation message flips the graph to `cancelled`, anything else to
`failed`. -/
def taoStatusAfterError (msg : String) : TaoStatus :=
  if msg = "Tao cancelled" ∨ msg = "Tao cancelled while paused" then
    .cancelled
  else
    .failed

/-- The state of a `Tao` instance (src/src/core/Tao.ts): its steps, status,
whether `register()` stored an id, the abort-controller signal state, the
`hasRun` flag, the `retryFailedZensOnly` configuration flag, the running-set
and the pause gate. -/
structure TaoM where
  zens : List ZenM
  status : TaoStatus := .pending
  registered : Bool := false
  aborted : Bool := false
  hasRun : Bool := false
  retryFailedZensOnly : Bool := false
  runningZens : List String := []
  pauseActive : Bool := false
deriving DecidableEq, Repr

/-- The dependency graph of a `Tao`: its steps' ids and dependency lists, in
insertion order, as consumed by `Tao.getExecutionOrder`. -/
def TaoM.graph (t : TaoM) : List (String × List String) :=
  t.zens.map (fun z => (z.id, z.deps))

/-- Mark the step with the given id completed with the given value, as the
successful branch of `Tao.executeZen`/`Zen._execute` leaves it. -/
def setZenCompleted (zens : List ZenM) (zid : String) (v : Nat) : List ZenM :=
  zens.map (fun z =>
    if z.id = zid then
      { z with status := .completed, value := some v, error := none }
    else z)

/-- Mark the step with the given id failed/cancelled with the given error, as
`Zen.handleZenError` leaves it. -/
def setZenFailed (zens : List ZenM) (zid : String) (e : String) : List ZenM :=
  zens.map (fun z =>
    if z.id = zid then
      { z with status := statusAfterError e, error := some e }
    else z)

/-- Execution of the steps of one batch, sequentialised (Tao.ts lines 342-366
and 1270-1303).  `skipCompleted` is the `retryFailedZensOnly && completed`
short-circuit of `Tao.retry` (lines 1275-1282): a completed step is not
executed and contributes its cached `getResult()` to the result map.  The
step outcome map `exec` stands for `Zen._execute`; a step failure marks the
step per `handleZenError` and aborts the batch.  Accumulates the result map
and the list of executed (invoked) step ids; the final component is the
error that aborted execution, if any. -/
def runZenList (exec : String → Except String Nat) (skipCompleted : Bool) :
    List String → List ZenM → List (String × Option Nat) → List String →
    List ZenM × List (String × Option Nat) × List String × Option String
  | [], zens, results, invoked => (zens, results, invoked, none)
  | zid :: rest, zens, results, invoked =>
    match lookupZen zens zid with
    | none => (zens, results, invoked, some s!"Zen {zid} not found")
    | some z =>
      if skipCompleted ∧ z.status = .completed then
        runZenList exec skipCompleted rest zens (results ++ [(zid, z.value)])
          invoked
      else
        match exec zid with
        | .ok v =>
          runZenList exec skipCompleted rest (setZenCompleted zens zid v)
            (results ++ [(zid, some v)]) (invoked ++ [zid])
        | .error e =>
          (setZenFailed zens zid e, results, invoked ++ [zid], some e)

/-- The outer per-batch loop of `Tao.run` / `Tao.retry`: run the batches in
order, stopping at the first error. -/
def runLayers (exec : String → Except String Nat) (skipCompleted : Bool) :
    List (List String) → List ZenM → List (String × Option Nat) →
    List String →
    List ZenM × List (String × Option Nat) × List String × Option String
  | [], zens, results, invoked => (zens, results, invoked, none)
  | batch :: batches, zens, results, invoked =>
    match runZenList exec skipCompleted batch zens results invoked with
    | (zens1, results1, invoked1, none) =>
      runLayers exec skipCompleted batches zens1 results1 invoked1
    | (zens1, results1, invoked1, some e) => (zens1, results1, invoked1, some e)

/-- Model of `Tao.run` (Tao.ts lines 299-389): reject a second run; mark the graph
running; an already-fired signal cancels; compute the execution order —
a cycle throws `Circular dependency detected` before any batch is touched
(the error then flows through `handleZenError`, marking the graph failed,
and is rethrown); otherwise execute the batches and mark the graph
completed, or failed/cancelled on a step error.  Returns the post-state,
the settled promise of `run`, and the ids of steps whose `_execute` ran.
The process-wide `runningTaos` admission counter and the persisted store
are outside this single-instance model. -/
def TaoM.runModel (t : TaoM) (exec : String → Except String Nat) :
    TaoM × Except String (List (String × Option Nat)) × List String :=
  if t.hasRun then
    (t, .error "Tao can only be run once. Create a new instance to run again.",
     [])
  else
    let t1 := { t with hasRun := true, status := .running }
    if t.aborted then
      ({ t1 with status := .cancelled }, .error "Tao cancelled", [])
    else
      match getExecutionOrder t1.graph with
      | .error e => ({ t1 with status := taoStatusAfterError e }, .error e, [])
      | .ok layers =>
        match runLayers exec false layers t1.zens [] [] with
        | (zens2, results, invoked, none) =>
          ({ t1 with zens := zens2, status := .completed }, .ok results,
           invoked)
        | (zens2, results, invoked, some e) =>
          ({ t1 with zens := zens2, status := taoStatusAfterError e },
           .error e, invoked)

/-- The step-reset phase of `Tao.retry` (Tao.ts lines 1228-1238): with
`retryFailedZensOnly` only failed/cancelled steps are reset, otherwise every
step is. -/
def retryResetZens (flag : Bool) (zens : List ZenM) : List ZenM :=
  if flag then
    zens.map (fun z =>
      if z.status = .failed ∨ z.status = .cancelled then z.reset else z)
  else
    zens.map ZenM.reset

/-- Model of `Tao.retry` (Tao.ts lines 1213-1323): only a failed or cancelled graph may
retry; an unregistered graph throws `Tao not registered` before the abort
controller is re-armed or any step is reset; then the abort controller is
re-armed, steps are reset per `retryFailedZensOnly`, the running-set and
pause gate are cleared, the graph turns running and the batches are executed
as in `run`, with completed steps skipped (cached) when
`retryFailedZensOnly` is set. -/
def TaoM.retryModel (t : TaoM) (exec : String → Except String Nat) :
    TaoM × Except String (List (String × Option Nat)) × List String :=
  if ¬(t.status = .failed ∨ t.status = .cancelled) then
    (t, .error "Only failed or cancelled tasks can be retried", [])
  else if ¬t.registered then
    (t, .error "Tao not registered", [])
  else
    let zens1 := retryResetZens t.retryFailedZensOnly t.zens
    let t1 := { t with aborted := false, zens := zens1, runningZens := [],
                       pauseActive := false, status := .running }
    match getExecutionOrder t1.graph with
    | .error e => ({ t1 with status := taoStatusAfterError e }, .error e, [])
    | .ok layers =>
      match runLayers exec t.retryFailedZensOnly layers zens1 [] [] with
      | (zens2, results, invoked, none) =>
        ({ t1 with zens := zens2, status := .completed }, .ok results, invoked)
      | (zens2, results, invoked, some e) =>
        ({ t1 with zens := zens2, status := taoStatusAfterError e },
         .error e, invoked)

/-- Model of `Tao.cancel` (Tao.ts lines 448-494): an already-cancelled graph returns
immediately, touching nothing and emitting nothing.  Otherwise the status is
flipped to `cancelled` first, the pause state is cleared, every step's
`onCancel` callback is invoked (best-effort), the running-set is cleared,
one `tao:fail` event carrying a cancellation error is emitted, and the
signal is aborted; the final `updateStatus("cancelled")` emits nothing
because the status is already `cancelled`.  Returns the post-state, the
emitted event types, and the ids of steps whose `onCancel` callback ran. -/
def TaoM.cancelModel (t : TaoM) : TaoM × List String × List String :=
  if t.status = .cancelled then (t, [], [])
  else
    ({ t with status := .cancelled, pauseActive := false, runningZens := [],
              aborted := true },
     ["tao:fail"],
     (t.zens.filter (fun z => z.config.hasOnCancel)).map ZenM.id)

/-- A JS value as far as the step-input object is concerned. -/
inductive JVal
  | num (n : Nat)
  | undef
deriving DecidableEq, Repr

/-- The shape of the object handed to a wrapped executor: its plain data
properties and the names of its function-valued properties. -/
structure ZenInputObj where
  dataFields : List (String × JVal)
  methodNames : List String
deriving DecidableEq, Repr

/-- The input value built by `Zen.executeCore` (Zen.ts line 141):
`const dependencyData = Object.fromEntries(depResults)` — a plain record of
the dependency results keyed by step id, with no function-valued
properties. -/
def executeCoreInput (depResults : List (String × JVal)) : ZenInputObj :=
  { dataFields := depResults, methodNames := [] }

/-- The `ZenInput` interface declared in src/core/type.ts (and used in the
README and tutorial examples): the executor input must expose the three read
operations `get`, `getById` and `getRaw`. -/
def isZenInputView (o : ZenInputObj) : Prop :=
  "get" ∈ o.methodNames ∧ "getById" ∈ o.methodNames ∧
    "getRaw" ∈ o.methodNames

/-- The wrapper demanded by the `ZenInput` interface (implemented as
`wrapDependencyResults` in the repository's alternate `Zen` implementation):
an object whose three methods close over the raw dependency-result record. -/
def wrapDependencyResults (depResults : List (String × JVal)) : ZenInputObj :=
  { dataFields := [], methodNames := ["get", "getById", "getRaw"] }

/-! ## Theorems -/

/-- Claim C4 (counterexample): `Zen.reset` does not leave the timestamps
unchanged — on a step whose timestamps are set, both are cleared. -/
theorem C4_counterexample :
    (ZenM.reset { id := "z1", name := "step", deps := [], status := .failed,
                  value := some 3, error := some "boom", startTime := some 5,
                  endTime := some 9, config := {} }).startTime ≠ some 5 ∧
    (ZenM.reset { id := "z1", name := "step", deps := [], status := .failed,
                  value := some 3, error := some "boom", startTime := some 5,
                  endTime := some 9, config := {} }).endTime ≠ some 9 := by
  constructor <;> simp [ZenM.reset]

/-- Claim C4 (amended): the reset operation used by the retry protocol sets
status to pending and clears the result and error values and both the start
and end timestamps, while leaving the step's identity (id, name),
dependencies and configuration unchanged. -/
theorem C4_reset_frame (z : ZenM) :
    z.reset.status = .pending ∧ z.reset.value = none ∧ z.reset.error = none ∧
    z.reset.startTime = none ∧ z.reset.endTime = none ∧
    z.reset.id = z.id ∧ z.reset.name = z.name ∧ z.reset.deps = z.deps ∧
    z.reset.config = z.config := by
  simp [ZenM.reset]

/-- Claim C7: with retry `{maxAttempts := 3, initialDelay := 100,
backoffFactor := 2, maxDelay := 1000}` and a wrapped function that fails on
attempts 1 and 2 and succeeds on attempt 3, exactly two `zen:retry` events
are emitted, carrying delays 100 and then 200, each attempt's executor runs,
and the step ends `completed` with the third attempt's result. -/
theorem C7_retry_backoff_trace :
    executeWithRetry
        { maxAttempts := 3, initialDelay := 100, maxDelay := 1000,
          backoffFactor := 2 }
        (fun _ => false)
        (fun n => if n ≤ 2 then .error "boom" else .ok 42) =
      { result := .ok 42,
        events := [(1, 100, "boom"), (2, 200, "boom")],
        waits := [100, 200],
        invoked := [1, 2, 3] } ∧
    statusAfterOutcome
        (executeWithRetry
          { maxAttempts := 3, initialDelay := 100, maxDelay := 1000,
            backoffFactor := 2 }
          (fun _ => false)
          (fun n => if n ≤ 2 then .error "boom" else .ok 42)).result =
      .completed := by
  constructor <;> rfl

/-- Claim C2 (counterexample): a step configured with both a retry policy and
`timeout := 50` whose single attempt takes 1000ms does not fail with the
timeout error — the attempt succeeds, because `_execute` routes to
`executeWithRetry`, which never applies the timeout race. -/
theorem C2_counterexample :
    zenPolicyExec "s"
        { retry := some { maxAttempts := 1, initialDelay := 100,
                          maxDelay := 1000, backoffFactor := 2 },
          timeout := some 50, hasOnCancel := false }
        (fun _ => false) (fun _ => (1000, .ok 7)) = .ok 7 ∧
    zenPolicyExec "s"
        { retry := some { maxAttempts := 1, initialDelay := 100,
                          maxDelay := 1000, backoffFactor := 2 },
          timeout := some 50, hasOnCancel := false }
        (fun _ => false) (fun _ => (1000, .ok 7)) ≠
      .error "Zen s timed out after 50ms" := by
  constructor <;> simp [zenPolicyExec, executeWithRetry, retryLoop,
    executeCore]

/-- Claim C2 (amended): when a retry policy is configured, the timeout policy
is ignored entirely — execution is identical whatever the configured
timeout, with each retry attempt a bare `executeCore` call. -/
theorem C2_timeout_ignored_under_retry (name : String) (cfg : ZenConfig)
    (rc : ZenRetryConfig) (abortedAt : Nat → Bool)
    (att : Nat → Nat × Except String Nat) (h : cfg.retry = some rc) :
    zenPolicyExec name cfg abortedAt att =
      zenPolicyExec name { cfg with timeout := none } abortedAt att := by
  simp [zenPolicyExec, h]

/-- Witness for `C2_timeout_ignored_under_retry` at a concrete
configuration. -/
theorem C2_timeout_ignored_under_retry_witness :
    zenPolicyExec "s"
        { retry := some { maxAttempts := 2, initialDelay := 100,
                          maxDelay := 1000, backoffFactor := 2 },
          timeout := some 50, hasOnCancel := false }
        (fun _ => false) (fun _ => (1000, .ok 7)) =
      zenPolicyExec "s"
        { retry := some { maxAttempts := 2, initialDelay := 100,
                          maxDelay := 1000, backoffFactor := 2 },
          timeout := none, hasOnCancel := false }
        (fun _ => false) (fun _ => (1000, .ok 7)) :=
  C2_timeout_ignored_under_retry "s" _ _ _ _ rfl

/-- Claim C5: the input value actually passed to a wrapped executor by
`Zen.executeCore` is the plain dependency-result record built by
`Object.fromEntries`, which has none of the three methods (`get`, `getById`,
`getRaw`) that the declared `ZenInput` interface requires — whereas the
wrapper demanded by the interface has all three.  Calling `input.get(...)`
as the README and the type declaration direct therefore fails at runtime. -/
theorem C5_executor_input_is_raw_record (depResults : List (String × JVal)) :
    ¬ isZenInputView (executeCoreInput depResults) ∧
      isZenInputView (wrapDependencyResults depResults) := by
  constructor
  · intro h
    simpa [isZenInputView, executeCoreInput] using h.1
  · refine ⟨?_, ?_, ?_⟩ <;> simp [wrapDependencyResults]

/-- Claim C9: `cancel()` is idempotent.  A first call on a not-yet-cancelled
graph produces the single transition to `cancelled` and emits exactly one
failure event; the second call observes the `cancelled` status, changes
nothing and emits nothing (and invokes no callbacks).  A call on an
already-cancelled graph is a no-op. -/
theorem C9_cancel_idempotent (t : TaoM) :
    (t.status ≠ .cancelled →
      t.cancelModel.1.status = .cancelled ∧
      t.cancelModel.2.1 = ["tao:fail"] ∧
      t.cancelModel.1.cancelModel = (t.cancelModel.1, [], [])) ∧
    (t.status = .cancelled → t.cancelModel = (t, [], [])) := by
  constructor
  · intro h
    simp [TaoM.cancelModel, h]
  · intro h
    simp [TaoM.cancelModel, h]

/-- Witness for `C9_cancel_idempotent` on a concrete running graph. -/
theorem C9_cancel_idempotent_witness :
    (({ zens := [], status := .running } : TaoM).cancelModel.1.status =
        .cancelled ∧
      ({ zens := [], status := .running } : TaoM).cancelModel.2.1 =
        ["tao:fail"] ∧
      ({ zens := [], status := .running } : TaoM).cancelModel.1.cancelModel =
        (({ zens := [], status := .running } : TaoM).cancelModel.1, [], [])) :=
  (C9_cancel_idempotent { zens := [], status := .running }).1 (by decide)

/-- Claim C10: on a failed or cancelled graph that was never registered,
`retry()` throws `Tao not registered` after the status check but before the
abort controller is re-armed or any step is reset: the returned state is the
unchanged graph and no step executes. -/
theorem C10_retry_unregistered (t : TaoM) (exec : String → Except String Nat)
    (h : t.status = .failed ∨ t.status = .cancelled)
    (hr : t.registered = false) :
    t.retryModel exec = (t, .error "Tao not registered", []) := by
  rw [TaoM.retryModel, if_neg (not_not_intro h)]
  simp [hr]

/-- Witness for `C10_retry_unregistered` on a concrete failed graph. -/
theorem C10_retry_unregistered_witness :
    ({ zens := [{ id := "a", name := "A" }], status := .failed,
       registered := false } : TaoM).retryModel (fun _ => .ok 0) =
      (({ zens := [{ id := "a", name := "A" }], status := .failed,
          registered := false } : TaoM), .error "Tao not registered", []) :=
  C10_retry_unregistered _ _ (Or.inl rfl) rfl

/-- When every attempt in the remaining window fails, the retry loop runs all
the way to `maxAttempts`: it surfaces the last attempt's error, emits a
retry event and performs a full backoff wait after every non-final attempt,
and invokes the wrapped executor exactly at the attempts where the abort
signal had not yet fired. -/
theorem retryLoop_all_error (rc : ZenRetryConfig) (ab : Nat → Bool)
    (att : Nat → Except String Nat)
    (herr : ∀ i, 1 ≤ i → i ≤ rc.maxAttempts →
      ∃ s, (executeCore ab att i).1 = .error s) :
    ∀ fuel a le, 1 ≤ fuel → 1 ≤ a → a + fuel = rc.maxAttempts + 1 →
      (retryLoop rc ab att le a fuel).result =
        (executeCore ab att rc.maxAttempts).1 ∧
      (retryLoop rc ab att le a fuel).events.length = fuel - 1 ∧
      (retryLoop rc ab att le a fuel).waits.length = fuel - 1 ∧
      (retryLoop rc ab att le a fuel).invoked =
        (List.range' a fuel).filter (fun i => !(ab i)) := by
  intro fuel
  induction fuel with
  | zero => intro a le h1 _ _; omega
  | succ fuel ih =>
    intro a le _ ha hsum
    have haM : a ≤ rc.maxAttempts := by omega
    obtain ⟨s, hs⟩ := herr a ha haM
    have hinv : (executeCore ab att a).2 = !(ab a) := by
      by_cases hab : ab a = true <;> simp [executeCore, hab]
    rcases hcore : executeCore ab att a with ⟨r, inv⟩
    rw [hcore] at hs hinv
    simp only at hs hinv
    subst hs
    subst hinv
    cases fuel with
    | zero =>
      have haeq : a = rc.maxAttempts := by omega
      subst haeq
      rw [retryLoop, hcore]
      dsimp only
      rw [if_pos rfl]
      refine ⟨rfl, rfl, rfl, ?_⟩
      by_cases hab : ab rc.maxAttempts = true <;>
        simp [List.range'_succ, hab]
    | succ fuel =>
      have hlt : a ≠ rc.maxAttempts := by omega
      rw [retryLoop, hcore]
      simp only [if_neg hlt]
      have hrec := ih (a + 1) s (by omega) (by omega) (by omega)
      refine ⟨hrec.1, ?_, ?_, ?_⟩
      · simp only [List.length_cons, hrec.2.1]; omega
      · simp only [List.length_cons, hrec.2.2.1]; omega
      · rw [hrec.2.2.2]
        have hr : List.range' a (fuel + 1 + 1) =
            a :: List.range' (a + 1) (fuel + 1) := by
          simpa using List.range'_succ a (fuel + 1) 1
        rw [hr, List.filter_cons]
        by_cases hab : ab a = true <;> simp [hab]

/-- Claim C3 (amended): cancellation firing during a backoff wait does not
abort the wait and does not stop the loop.  If the signal fires from attempt
`k` on (and every earlier attempt genuinely failed), the loop still runs
through all `maxAttempts` attempts: every non-final attempt emits a retry
event and is followed by a complete backoff wait, each attempt from `k` on
merely rejects immediately with `Task cancelled` without invoking the
wrapped executor, and after the last attempt the surfaced error is the
cancellation error, so the step ends `cancelled`. -/
theorem C3_cancellation_retried_through_backoff (rc : ZenRetryConfig)
    (ab : Nat → Bool) (att : Nat → Except String Nat) (k : Nat)
    (hk1 : 1 ≤ k) (hk2 : k ≤ rc.maxAttempts)
    (hab : ∀ i, k ≤ i → ab i = true)
    (hnab : ∀ i, i < k → ab i = false)
    (hfail : ∀ i, 1 ≤ i → i < k → ∃ e, att i = .error e) :
    (executeWithRetry rc ab att).result = .error "Task cancelled" ∧
    statusAfterOutcome (executeWithRetry rc ab att).result = .cancelled ∧
    (executeWithRetry rc ab att).invoked = List.range' 1 (k - 1) ∧
    (executeWithRetry rc ab att).events.length = rc.maxAttempts - 1 ∧
    (executeWithRetry rc ab att).waits.length = rc.maxAttempts - 1 := by
  have herr : ∀ i, 1 ≤ i → i ≤ rc.maxAttempts →
      ∃ s, (executeCore ab att i).1 = .error s := by
    intro i hi1 _
    by_cases hik : i < k
    · obtain ⟨e, he⟩ := hfail i hi1 hik
      exact ⟨e, by simp [executeCore, hnab i hik, he]⟩
    · exact ⟨"Task cancelled", by simp [executeCore, hab i (by omega)]⟩
  have hmain := retryLoop_all_error rc ab att herr rc.maxAttempts 1 "Unknown"
    (by omega) le_rfl (by omega)
  have hlast : (executeCore ab att rc.maxAttempts).1 =
      .error "Task cancelled" := by
    simp [executeCore, hab rc.maxAttempts hk2]
  have hres : (executeWithRetry rc ab att).result =
      .error "Task cancelled" := by
    rw [executeWithRetry, hmain.1, hlast]
  refine ⟨hres, ?_, ?_, ?_, ?_⟩
  · rw [hres]; simp [statusAfterOutcome, statusAfterError]
  · rw [executeWithRetry, hmain.2.2.2]
    have hsplit : List.range' 1 rc.maxAttempts =
        List.range' 1 (k - 1) ++ List.range' k (rc.maxAttempts - (k - 1)) := by
      have := List.range'_append 1 (k - 1) (rc.maxAttempts - (k - 1)) 1
      simp only [one_mul] at this
      rw [show 1 + (k - 1) = k by omega] at this
      rw [show rc.maxAttempts - (k - 1) + (k - 1) = rc.maxAttempts by omega]
        at this
      exact this.symm
    rw [hsplit, List.filter_append]
    have h1 : (List.range' 1 (k - 1)).filter (fun i => !(ab i)) =
        List.range' 1 (k - 1) := by
      apply List.filter_eq_self.mpr
      intro i hi
      have := (List.mem_range'_1.mp hi).2
      simp [hnab i (by omega)]
    have h2 : (List.range' k (rc.maxAttempts - (k - 1))).filter
        (fun i => !(ab i)) = [] := by
      apply List.filter_eq_nil_iff.mpr
      intro i hi
      have := (List.mem_range'_1.mp hi).1
      simp [hab i this]
    rw [h1, h2, List.append_nil]
  · rw [executeWithRetry, hmain.2.1]
  · rw [executeWithRetry, hmain.2.2.1]

/-- Claim C3 (counterexample): retry `{maxAttempts := 3, initialDelay := 100,
backoffFactor := 2, maxDelay := 1000}`, first attempt fails with `boom`,
cancellation fires during the first backoff wait (so the signal is aborted
from attempt 2 on).  The claim requires the wait to be aborted and no
further attempt to be made — but the trace shows the first wait completing
in full, a second retry event being emitted after cancellation (carrying the
cancellation error), and a second full backoff wait. -/
theorem C3_counterexample :
    executeWithRetry
        { maxAttempts := 3, initialDelay := 100, maxDelay := 1000,
          backoffFactor := 2 }
        (fun i => decide (2 ≤ i))
        (fun n => if n = 1 then .error "boom" else .ok 42) =
      { result := .error "Task cancelled",
        events := [(1, 100, "boom"), (2, 200, "Task cancelled")],
        waits := [100, 200],
        invoked := [1] } ∧
    (executeWithRetry
        { maxAttempts := 3, initialDelay := 100, maxDelay := 1000,
          backoffFactor := 2 }
        (fun i => decide (2 ≤ i))
        (fun n => if n = 1 then .error "boom" else .ok 42)).events ≠
      [(1, 100, "boom")] ∧
    (executeWithRetry
        { maxAttempts := 3, initialDelay := 100, maxDelay := 1000,
          backoffFactor := 2 }
        (fun i => decide (2 ≤ i))
        (fun n => if n = 1 then .error "boom" else .ok 42)).waits ≠
      [100] := by
  refine ⟨rfl, ?_, ?_⟩ <;> simp [executeWithRetry, retryLoop, executeCore,
    retryDelay]

/-- Witness for `C3_cancellation_retried_through_backoff` at the
counterexample's inputs (`k = 2`). -/
theorem C3_cancellation_retried_through_backoff_witness :
    (executeWithRetry
        { maxAttempts := 3, initialDelay := 100, maxDelay := 1000,
          backoffFactor := 2 }
        (fun i => decide (2 ≤ i))
        (fun n => if n = 1 then .error "boom" else .ok 42)).result =
      .error "Task cancelled" ∧
    (executeWithRetry
        { maxAttempts := 3, initialDelay := 100, maxDelay := 1000,
          backoffFactor := 2 }
        (fun i => decide (2 ≤ i))
        (fun n => if n = 1 then .error "boom" else .ok 42)).invoked =
      List.range' 1 1 :=
  have h := C3_cancellation_retried_through_backoff
    { maxAttempts := 3, initialDelay := 100, maxDelay := 1000,
      backoffFactor := 2 }
    (fun i => decide (2 ≤ i))
    (fun n => if n = 1 then .error "boom" else .ok 42) 2
    (by decide) (by decide)
    (fun i hi => by simp [hi])
    (fun i hi => by simp; omega)
    (fun i hi1 hi2 => ⟨"boom", by
      have hi : i = 1 := by omega
      subst hi
      rfl⟩)
  ⟨h.1, h.2.2.1⟩

/-- A dependency-unresolved message is never a cancellation message, so
`handleZenError` marks the step `failed`, not `cancelled`. -/
theorem statusAfterError_dependency_msg (n : String) :
    statusAfterError s!"Dependency {n} not completed" = .failed := by
  have hmsg : s!"Dependency {n} not completed" =
      "Dependency " ++ n ++ " not completed" := rfl
  rw [hmsg, statusAfterError, if_neg]
  rintro (h | h)
  · have hl := congrArg String.length h
    rw [String.length_append, String.length_append] at hl
    have e1 : ("Dependency ").length = 11 := rfl
    have e2 : (" not completed").length = 14 := rfl
    have e3 : ("Task cancelled").length = 14 := rfl
    rw [e1, e2, e3] at hl
    omega
  · have hd := congrArg String.data h
    rw [String.data_append, String.data_append] at hd
    have e1 : ("Dependency ").data = 'D' :: "ependency ".data := rfl
    have e2 : ("Task cancelled while paused").data =
        'T' :: "ask cancelled while paused".data := rfl
    rw [e1, e2, List.cons_append, List.cons_append] at hd
    simp only [List.cons.injEq] at hd
    exact absurd hd.1 (by decide)

/-- If every declared dependency resolves to a sibling and at least one of
those siblings is not `completed`, `waitForDependencies` rejects with a
`Dependency ... not completed` error — it never substitutes a default. -/
theorem waitForDependencies_not_completed (siblings : List ZenM) :
    ∀ deps : List String,
      (∀ d ∈ deps, (lookupZen siblings d).isSome) →
      (∃ d ∈ deps, ∃ w, lookupZen siblings d = some w ∧
        w.status ≠ .completed) →
      ∃ n : String, waitForDependencies siblings deps =
        .error s!"Dependency {n} not completed" := by
  intro deps
  induction deps with
  | nil => rintro _ ⟨d, hd, _⟩; exact absurd hd (List.not_mem_nil d)
  | cons d rest ih =>
    intro hpres hex
    obtain ⟨dz, hdz⟩ := Option.isSome_iff_exists.mp
      (hpres d (List.mem_cons_self d rest))
    by_cases hc : dz.status = .completed
    · have hrest : ∃ d ∈ rest, ∃ w, lookupZen siblings d = some w ∧
          w.status ≠ .completed := by
        obtain ⟨d0, hd0, w, hw, hwne⟩ := hex
        rcases List.mem_cons.mp hd0 with rfl | hd0r
        · rw [hdz] at hw
          cases hw
          exact absurd hc hwne
        · exact ⟨d0, hd0r, w, hw, hwne⟩
      obtain ⟨n, hn⟩ := ih (fun x hx => hpres x (List.mem_cons_of_mem d hx))
        hrest
      exact ⟨n, by simp [waitForDependencies, hdz, hc, hn]⟩
    · exact ⟨dz.name, by simp [waitForDependencies, hdz, hc]⟩

/-- Claim C8: (a) the public result accessor of a step yields a value only in
`completed` status; (b) when a step begins execution and some declared
dependency is present but not `completed`, `_execute` rejects with a hard
`Dependency ... not completed` error and the step ends `failed` — never a
silent default value. -/
theorem C8_result_only_when_completed :
    (∀ z : ZenM, z.status ≠ .completed → z.result = none) ∧
    (∀ (z : ZenM) (siblings : List ZenM) (ab : Nat → Bool)
      (att : Nat → Nat × Except String Nat) (now : Nat),
      ab 0 = false →
      (∀ d ∈ z.deps, (lookupZen siblings d).isSome) →
      (∃ d ∈ z.deps, ∃ w, lookupZen siblings d = some w ∧
        w.status ≠ .completed) →
      ∃ n : String, (z.executeM siblings ab att now).2 =
          .error s!"Dependency {n} not completed" ∧
        (z.executeM siblings ab att now).1.status = .failed) := by
  constructor
  · intro z hz
    simp [ZenM.result, hz]
  · intro z siblings ab att now hab hpres hex
    obtain ⟨n, hn⟩ := waitForDependencies_not_completed siblings z.deps hpres
      hex
    refine ⟨n, ?_, ?_⟩ <;>
      simp [ZenM.executeM, hab, hn, statusAfterError_dependency_msg]

/-- Witness for `C8_result_only_when_completed` at a concrete step whose only
dependency is a pending sibling. -/
theorem C8_result_only_when_completed_witness :
    ({ id := "b", name := "B", deps := [], status := .running,
       value := some 7 } : ZenM).result = none ∧
    ∃ n : String, (({ id := "b", name := "B", deps := ["a"] } : ZenM).executeM
          [{ id := "a", name := "A", status := .pending }]
          (fun _ => false) (fun _ => (0, .ok 0)) 0).2 =
        .error s!"Dependency {n} not completed" ∧
      (({ id := "b", name := "B", deps := ["a"] } : ZenM).executeM
          [{ id := "a", name := "A", status := .pending }]
          (fun _ => false) (fun _ => (0, .ok 0)) 0).1.status = .failed := by
  constructor
  · exact C8_result_only_when_completed.1 _ (by decide)
  · exact C8_result_only_when_completed.2 _ _ _ _ _ rfl
      (by intro d hd; simp at hd; subst hd; rfl)
      ⟨"a", by simp, { id := "a", name := "A", status := .pending }, rfl,
        by decide⟩

/-- Membership in the assignable batch. -/
theorem mem_assignable {zens : List (String × List String)}
    {visited : List String} {a : String} :
    a ∈ assignable zens visited ↔
      ∃ z ∈ zens, z.1 = a ∧ a ∉ visited ∧ ∀ d ∈ z.2, d ∈ visited := by
  simp only [assignable, List.mem_map, List.mem_filter, decide_eq_true_eq]
  constructor
  · rintro ⟨z, ⟨hz, hnv, hdeps⟩, rfl⟩
    exact ⟨z, hz, rfl, hnv, hdeps⟩
  · rintro ⟨z, hz, rfl, hnv, hdeps⟩
    exact ⟨z, ⟨hz, hnv, hdeps⟩, rfl⟩

/-- Membership in the unassigned remainder. -/
theorem mem_unassigned {zens : List (String × List String)}
    {visited : List String} {z : String × List String} :
    z ∈ unassigned zens visited ↔ z ∈ zens ∧ z.1 ∉ visited := by
  simp [unassigned, List.mem_filter]

/-- The measure argument of `getExecutionOrderAux`: appending a nonempty
assignable batch to the visited set strictly shrinks the unassigned
remainder. -/
theorem unassigned_append_assignable_lt
    (zens : List (String × List String)) (visited : List String)
    (h : ¬(assignable zens visited).isEmpty = true) :
    (unassigned zens (visited ++ assignable zens visited)).length <
      (unassigned zens visited).length := by
  simp only [List.isEmpty_iff] at h
  obtain ⟨a, ha⟩ := List.exists_mem_of_ne_nil _ h
  obtain ⟨z, hz, rfl, hnv, _⟩ := mem_assignable.mp ha
  have hzu : z ∈ unassigned zens visited := mem_unassigned.mpr ⟨hz, hnv⟩
  have key : unassigned zens (visited ++ assignable zens visited)
      = (unassigned zens visited).filter
          (fun w => decide (w.1 ∉ visited ++ assignable zens visited)) := by
    unfold unassigned
    rw [List.filter_filter]
    apply List.filter_congr
    intro w _
    by_cases hw : w.1 ∈ visited <;> simp [hw, List.mem_append]
  rw [key]
  apply List.length_filter_lt_length_iff_exists.mpr
  refine ⟨z, hzu, ?_⟩
  simp [List.mem_append, ha]

/-- Coverage of the computed batches: when the layering succeeds starting from
`visited`, the union of the batches is exactly the set of step ids not yet
visited. -/
theorem getExecutionOrderAux_mem (zens : List (String × List String)) :
    ∀ (n : Nat) (visited : List String) (L : List (List String)),
      (unassigned zens visited).length = n →
      getExecutionOrderAux zens visited = .ok L →
      ∀ a, a ∈ L.join ↔ a ∈ zens.map Prod.fst ∧ a ∉ visited := by
  intro n
  induction n using Nat.strong_induction_on with
  | _ n ih =>
    intro visited L hlen haux a
    rw [getExecutionOrderAux] at haux
    by_cases hemp : (unassigned zens visited).isEmpty
    · rw [if_pos hemp] at haux
      cases haux
      simp only [List.join_nil, List.not_mem_nil, false_iff]
      rintro ⟨hmem, hnv⟩
      obtain ⟨z, hz, rfl⟩ := List.mem_map.mp hmem
      rw [List.isEmpty_iff] at hemp
      have : z ∈ unassigned zens visited := mem_unassigned.mpr ⟨hz, hnv⟩
      rw [hemp] at this
      exact absurd this (List.not_mem_nil z)
    · rw [if_neg hemp] at haux
      by_cases hlay : (assignable zens visited).isEmpty
      · rw [dif_pos hlay] at haux
        cases haux
      · rw [dif_neg hlay] at haux
        cases hrec : getExecutionOrderAux zens
            (visited ++ assignable zens visited) with
        | error e => rw [hrec] at haux; cases haux
        | ok rest =>
          rw [hrec] at haux
          cases haux
          have hdec := unassigned_append_assignable_lt zens visited hlay
          rw [hlen] at hdec
          have hrest := ih _ hdec (visited ++ assignable zens visited) rest
            rfl hrec
          simp only [List.join_cons, List.mem_append, hrest a,
            List.mem_append]
          constructor
          · rintro (hmem | ⟨hmem, hnv⟩)
            · obtain ⟨z, hz, rfl, hnv, _⟩ := mem_assignable.mp hmem
              exact ⟨List.mem_map.mpr ⟨z, hz, rfl⟩, hnv⟩
            · exact ⟨hmem, fun hv => hnv (Or.inl hv)⟩
          · rintro ⟨hmem, hnv⟩
            by_cases hin : a ∈ assignable zens visited
            · exact Or.inl hin
            · exact Or.inr ⟨hmem, fun hv => hv.elim hnv hin⟩

/-- Each assignable batch has no duplicate ids when the step map's keys are
unique. -/
theorem assignable_nodup {zens : List (String × List String)}
    {visited : List String} (hnd : (zens.map Prod.fst).Nodup) :
    (assignable zens visited).Nodup :=
  List.Nodup.sublist (List.Sublist.map Prod.fst (List.filter_sublist zens)) hnd

/-- When the layering succeeds, the union of its batches has no duplicates:
every step is assigned to exactly one position. -/
theorem getExecutionOrderAux_nodup (zens : List (String × List String))
    (hnd : (zens.map Prod.fst).Nodup) :
    ∀ (n : Nat) (visited : List String) (L : List (List String)),
      (unassigned zens visited).length = n →
      getExecutionOrderAux zens visited = .ok L →
      L.join.Nodup := by
  intro n
  induction n using Nat.strong_induction_on with
  | _ n ih =>
    intro visited L hlen haux
    rw [getExecutionOrderAux] at haux
    by_cases hemp : (unassigned zens visited).isEmpty
    · rw [if_pos hemp] at haux
      cases haux
      simp
    · rw [if_neg hemp] at haux
      by_cases hlay : (assignable zens visited).isEmpty
      · rw [dif_pos hlay] at haux
        cases haux
      · rw [dif_neg hlay] at haux
        cases hrec : getExecutionOrderAux zens
            (visited ++ assignable zens visited) with
        | error e => rw [hrec] at haux; cases haux
        | ok rest =>
          rw [hrec] at haux
          cases haux
          have hdec := unassigned_append_assignable_lt zens visited hlay
          rw [hlen] at hdec
          have hjoin := ih _ hdec (visited ++ assignable zens visited) rest
            rfl hrec
          have hmem := getExecutionOrderAux_mem zens _
            (visited ++ assignable zens visited) rest rfl hrec
          simp only [List.join_cons]
          refine List.Nodup.append (assignable_nodup hnd) hjoin ?_
          intro a ha har
          have := ((hmem a).mp har).2
          exact this (List.mem_append.mpr (Or.inr ha))

/-- Dependencies of a step assigned to batch `i` are either already visited or
sit in a strictly earlier batch. -/
theorem getExecutionOrderAux_deps (zens : List (String × List String))
    (hnd : (zens.map Prod.fst).Nodup) :
    ∀ (n : Nat) (visited : List String) (L : List (List String)),
      (unassigned zens visited).length = n →
      getExecutionOrderAux zens visited = .ok L →
      ∀ z ∈ zens, ∀ (i : Nat) (hi : i < L.length), z.1 ∈ L.get ⟨i, hi⟩ →
        ∀ d ∈ z.2, d ∈ visited ∨
          ∃ (j : Nat) (hj : j < L.length), j < i ∧ d ∈ L.get ⟨j, hj⟩ := by
  intro n
  induction n using Nat.strong_induction_on with
  | _ n ih =>
    intro visited L hlen haux z hz i hi hzi d hd
    rw [getExecutionOrderAux] at haux
    by_cases hemp : (unassigned zens visited).isEmpty
    · rw [if_pos hemp] at haux
      cases haux
      exact absurd hi (by simp)
    · rw [if_neg hemp] at haux
      by_cases hlay : (assignable zens visited).isEmpty
      · rw [dif_pos hlay] at haux
        cases haux
      · rw [dif_neg hlay] at haux
        cases hrec : getExecutionOrderAux zens
            (visited ++ assignable zens visited) with
        | error e => rw [hrec] at haux; cases haux
        | ok rest =>
          rw [hrec] at haux
          cases haux
          have hdec := unassigned_append_assignable_lt zens visited hlay
          rw [hlen] at hdec
          cases i with
          | zero =>
            obtain ⟨w, hw, hfst, _, hdeps⟩ := mem_assignable.mp hzi
            have hzw : w = z := List.inj_on_of_nodup_map hnd hw hz hfst
            subst hzw
            exact Or.inl (hdeps d hd)
          | succ i =>
            have hrest := ih _ hdec (visited ++ assignable zens visited) rest
              rfl hrec z hz i (by simpa using Nat.lt_of_succ_lt_succ hi)
              (by simpa using hzi) d hd
            rcases hrest with hv | ⟨j, hj, hji, hdj⟩
            · rcases List.mem_append.mp hv with hv | hlayer
              · exact Or.inl hv
              · exact Or.inr ⟨0, by simp, Nat.succ_pos i, hlayer⟩
            · exact Or.inr ⟨j + 1, by simpa using Nat.succ_lt_succ hj,
                Nat.succ_lt_succ hji, by simpa using hdj⟩

/-- Every element of a dependency cycle has a successor in the cycle it points
to with an edge. -/
theorem cycle_succ {zens : List (String × List String)} {c : List String}
    (hc : IsCycle zens c) : ∀ a ∈ c, ∃ b ∈ c, hasEdge zens a b := by
  obtain ⟨hne, hchain⟩ := hc
  intro a ha
  obtain ⟨⟨i, hi⟩, rfl⟩ := List.mem_iff_get.mp ha
  have hilt : i < (c ++ [c.head!]).length - 1 := by
    simp only [List.length_append, List.length_singleton]
    omega
  have hch := List.chain'_iff_get.mp hchain i hilt
  rw [List.get_eq_getElem, List.get_eq_getElem,
    List.getElem_append_left hi] at hch
  by_cases hsucc : i + 1 < c.length
  · rw [List.getElem_append_left hsucc] at hch
    refine ⟨c.get ⟨i + 1, hsucc⟩, List.get_mem c (i + 1) hsucc, ?_⟩
    simpa [List.get_eq_getElem] using hch
  · have hieq : c.length ≤ i + 1 := by omega
    rw [List.getElem_append_right hieq] at hch
    have hz : i + 1 - c.length = 0 := by omega
    simp only [hz, List.getElem_singleton] at hch
    exact ⟨c.head!, List.head!_mem_self hne, by
      simpa [List.get_eq_getElem] using hch⟩

/-- Every element of a dependency cycle is a step id. -/
theorem cycle_subset_ids {zens : List (String × List String)}
    {c : List String} (hc : IsCycle zens c) :
    ∀ a ∈ c, a ∈ zens.map Prod.fst := by
  intro a ha
  obtain ⟨b, _, z, hz, rfl, _⟩ := cycle_succ hc a ha
  exact List.mem_map.mpr ⟨z, hz, rfl⟩

/-- When the layering is stuck — unvisited steps remain but none is
assignable — the dependency graph contains a cycle (provided every declared
dependency refers to an existing step). -/
theorem stuck_has_cycle (zens : List (String × List String))
    (hclosed : ∀ z ∈ zens, ∀ d ∈ z.2, d ∈ zens.map Prod.fst)
    (visited : List String)
    (hne : ¬(unassigned zens visited).isEmpty = true)
    (hstuck : (assignable zens visited).isEmpty = true) :
    ∃ c, IsCycle zens c := by
  classical
  simp only [List.isEmpty_iff] at hne hstuck
  set RL := (unassigned zens visited).map Prod.fst with hRL
  have hstep : ∀ a ∈ RL, ∃ b ∈ RL, hasEdge zens a b := by
    intro a ha
    obtain ⟨z, hzu, rfl⟩ := List.mem_map.mp ha
    obtain ⟨hz, hnv⟩ := mem_unassigned.mp hzu
    have hnotassign : z.1 ∉ assignable zens visited := by
      rw [hstuck]; exact List.not_mem_nil _
    have hnotall : ¬(∀ d ∈ z.2, d ∈ visited) := by
      intro hall
      exact hnotassign (mem_assignable.mpr ⟨z, hz, rfl, hnv, hall⟩)
    push_neg at hnotall
    obtain ⟨d, hd, hdnv⟩ := hnotall
    obtain ⟨w, hw, rfl⟩ := List.mem_map.mp (hclosed z hz d hd)
    exact ⟨w.1, List.mem_map.mpr ⟨w, mem_unassigned.mpr ⟨hw, hdnv⟩, rfl⟩,
      z, hz, rfl, hd⟩
  let g : String → String := fun a =>
    if h : ∃ b ∈ RL, hasEdge zens a b then h.choose else a
  have hg : ∀ a ∈ RL, g a ∈ RL ∧ hasEdge zens a (g a) := by
    intro a ha
    have hex := hstep a ha
    simp only [g, dif_pos hex]
    exact ⟨hex.choose_spec.1, hex.choose_spec.2⟩
  obtain ⟨z0, hz0⟩ := List.exists_mem_of_ne_nil _ hne
  have ha0 : z0.1 ∈ RL := List.mem_map.mpr ⟨z0, hz0, rfl⟩
  have hseqmem : ∀ k, g^[k] z0.1 ∈ RL := by
    intro k
    induction k with
    | zero => simpa using ha0
    | succ k ihk =>
      rw [Function.iterate_succ_apply']
      exact (hg _ ihk).1
  have hseqedge : ∀ k, hasEdge zens (g^[k] z0.1) (g^[k + 1] z0.1) := by
    intro k
    rw [Function.iterate_succ_apply']
    exact (hg _ (hseqmem k)).2
  have build : ∀ m p, m < p → g^[m] z0.1 = g^[p] z0.1 → ∃ c, IsCycle zens c
      := by
    intro m p hmp heq
    refine ⟨(List.range (p - m)).map (fun t => g^[m + t] z0.1), ?_, ?_⟩
    · simp only [ne_eq, List.map_eq_nil_iff, List.range_eq_nil]
      omega
    · have hhead : ((List.range (p - m)).map
          (fun t => g^[m + t] z0.1)).head! = g^[m] z0.1 := by
        obtain ⟨K, hK⟩ : ∃ K, p - m = K + 1 := ⟨p - m - 1, by omega⟩
        rw [hK, List.range_succ_eq_map, List.map_cons]
        simp
      have happ : (List.range (p - m)).map (fun t => g^[m + t] z0.1) ++
          [((List.range (p - m)).map (fun t => g^[m + t] z0.1)).head!] =
          (List.range (p - m + 1)).map (fun t => g^[m + t] z0.1) := by
        rw [hhead, List.range_succ, List.map_append]
        simp only [List.map_cons, List.map_nil, List.append_cancel_left_eq,
          List.cons.injEq, and_true]
        rw [show m + (p - m) = p by omega, heq]
      rw [happ]
      apply List.chain'_iff_get.mpr
      intro i hilen
      simp only [List.length_map, List.length_range] at hilen
      rw [List.get_map, List.get_map, List.get_range, List.get_range]
      rw [show m + (i + 1) = (m + i) + 1 by omega]
      exact hseqedge (m + i)
  have hmaps : ∀ k ∈ Finset.range (RL.toFinset.card + 1),
      g^[k] z0.1 ∈ RL.toFinset :=
    fun k _ => List.mem_toFinset.mpr (hseqmem k)
  have hcard : RL.toFinset.card <
      (Finset.range (RL.toFinset.card + 1)).card := by simp
  obtain ⟨m, _, p, _, hne2, heq⟩ :=
    Finset.exists_ne_map_eq_of_card_lt_of_maps_to hcard hmaps
  rcases Nat.lt_or_ge m p with hlt | hge
  · exact build m p hlt heq
  · have hlt : p < m := by omega
    exact build p m hlt heq.symm

/-- For an acyclic, dependency-closed graph the layering always succeeds. -/
theorem getExecutionOrderAux_ok_of_acyclic (zens : List (String × List String))
    (hclosed : ∀ z ∈ zens, ∀ d ∈ z.2, d ∈ zens.map Prod.fst)
    (hnocycle : ¬∃ c, IsCycle zens c) :
    ∀ (n : Nat) (visited : List String),
      (unassigned zens visited).length = n →
      ∃ L, getExecutionOrderAux zens visited = .ok L := by
  intro n
  induction n using Nat.strong_induction_on with
  | _ n ih =>
    intro visited hlen
    by_cases hemp : (unassigned zens visited).isEmpty
    · exact ⟨[], by rw [getExecutionOrderAux, if_pos hemp]⟩
    · by_cases hlay : (assignable zens visited).isEmpty
      · exact absurd (stuck_has_cycle zens hclosed visited hemp hlay) hnocycle
      · have hdec := unassigned_append_assignable_lt zens visited hlay
        rw [hlen] at hdec
        obtain ⟨rest, hrest⟩ := ih _ hdec (visited ++ assignable zens visited)
          rfl
        exact ⟨assignable zens visited :: rest, by
          rw [getExecutionOrderAux, if_neg hemp, dif_neg hlay, hrest]⟩

/-- On a graph with a cycle whose elements are all unvisited, the layering
always ends in the `Circular dependency detected` error. -/
theorem getExecutionOrderAux_error_of_cycle
    (zens : List (String × List String))
    (hnd : (zens.map Prod.fst).Nodup) {c : List String}
    (hc : IsCycle zens c) :
    ∀ (n : Nat) (visited : List String),
      (unassigned zens visited).length = n →
      (∀ a ∈ c, a ∉ visited) →
      getExecutionOrderAux zens visited =
        .error "Circular dependency detected" := by
  intro n
  induction n using Nat.strong_induction_on with
  | _ n ih =>
    intro visited hlen hcv
    have hne := hc.1
    obtain ⟨a0, ha0⟩ := List.exists_mem_of_ne_nil _ hne
    obtain ⟨z0, hz0, rfl⟩ := List.mem_map.mp (cycle_subset_ids hc a0 ha0)
    have hemp : ¬(unassigned zens visited).isEmpty = true := by
      simp only [List.isEmpty_iff]
      intro habs
      have : z0 ∈ unassigned zens visited :=
        mem_unassigned.mpr ⟨hz0, hcv z0.1 ha0⟩
      rw [habs] at this
      exact absurd this (List.not_mem_nil z0)
    by_cases hlay : (assignable zens visited).isEmpty
    · rw [getExecutionOrderAux, if_neg hemp, dif_pos hlay]
    · have hinv : ∀ a ∈ c, a ∉ visited ++ assignable zens visited := by
        intro a ha
        rw [List.mem_append]
        rintro (hv | hasgn)
        · exact hcv a ha hv
        · obtain ⟨w, hw, rfl, _, hdeps⟩ := mem_assignable.mp hasgn
          obtain ⟨b, hbc, z, hz, hfst, hbz⟩ := cycle_succ hc w.1 ha
          have hwz : w = z := List.inj_on_of_nodup_map hnd hw hz hfst.symm
          subst hwz
          exact hcv b hbc (hdeps b hbz)
      have hdec := unassigned_append_assignable_lt zens visited hlay
      rw [hlen] at hdec
      have herr := ih _ hdec (visited ++ assignable zens visited) rfl hinv
      rw [getExecutionOrderAux, if_neg hemp, dif_neg hlay, herr]

/-- A ranking that strictly decreases along every dependency edge rules out
cycles. -/
theorem no_cycle_of_rank (zens : List (String × List String))
    (rank : String → Nat)
    (hr : ∀ z ∈ zens, ∀ d ∈ z.2, rank d < rank z.1) :
    ¬∃ c, IsCycle zens c := by
  rintro ⟨c, hc⟩
  have hne := hc.1
  obtain ⟨a0, ha0⟩ := List.exists_mem_of_ne_nil _ hne
  have hfin : c.toFinset.Nonempty := ⟨a0, List.mem_toFinset.mpr ha0⟩
  obtain ⟨a, haf, hmin⟩ := Finset.exists_min_image c.toFinset rank hfin
  obtain ⟨b, hbc, z, hz, rfl, hbz⟩ :=
    cycle_succ hc a (List.mem_toFinset.mp haf)
  have h1 : rank b < rank z.1 := hr z hz b hbz
  have h2 : rank z.1 ≤ rank b := hmin b (List.mem_toFinset.mpr hbc)
  omega

/-- In a duplicate-free flattened batching, an id determines its batch
index. -/
theorem nodup_join_get_unique :
    ∀ {L : List (List String)}, L.join.Nodup →
      ∀ {a : String} {i j : Nat} (hi : i < L.length) (hj : j < L.length),
        a ∈ L.get ⟨i, hi⟩ → a ∈ L.get ⟨j, hj⟩ → i = j := by
  intro L
  induction L with
  | nil => intro _ a i j hi _ _ _; simp at hi
  | cons x rest ihL =>
    intro hnd a i j hi hj hai haj
    simp only [List.join_cons, List.nodup_append] at hnd
    obtain ⟨hx, hrest, hdisj⟩ := hnd
    have hmem : ∀ (k : Nat) (hk : k < rest.length),
        a ∈ rest.get ⟨k, hk⟩ → a ∈ rest.join := by
      intro k hk hak
      exact List.mem_join.mpr ⟨rest.get ⟨k, hk⟩, List.get_mem rest k hk, hak⟩
    cases i with
    | zero =>
      cases j with
      | zero => rfl
      | succ j =>
        exact absurd (hmem j (by simpa using Nat.lt_of_succ_lt_succ hj)
          (by simpa using haj)) (hdisj hai)
    | succ i =>
      cases j with
      | zero =>
        exact absurd (hmem i (by simpa using Nat.lt_of_succ_lt_succ hi)
          (by simpa using hai)) (hdisj haj)
      | succ j =>
        have := ihL hrest (by simpa using Nat.lt_of_succ_lt_succ hi)
          (by simpa using Nat.lt_of_succ_lt_succ hj)
          (by simpa using hai) (by simpa using haj)
        omega

/-- Claim C1: (a) on every dependency-closed graph with duplicate-free step
ids and no dependency cycle, `getExecutionOrder` succeeds with a batching in
which every step appears in exactly one batch and every dependency of a step
sits in a strictly earlier batch than the step; (b) on every graph
containing a cycle, `run` rejects with the `Circular dependency detected`
error and no step's wrapped function is invoked. -/
theorem C1_execution_order_correct :
    (∀ zens : List (String × List String),
      (zens.map Prod.fst).Nodup →
      (∀ z ∈ zens, ∀ d ∈ z.2, d ∈ zens.map Prod.fst) →
      (¬∃ c, IsCycle zens c) →
      ∃ L, getExecutionOrder zens = .ok L ∧
        (∀ z ∈ zens, L.join.count z.1 = 1) ∧
        (∀ z ∈ zens, ∀ d ∈ z.2, ∀ (i : Nat) (hi : i < L.length)
          (j : Nat) (hj : j < L.length),
          z.1 ∈ L.get ⟨i, hi⟩ → d ∈ L.get ⟨j, hj⟩ → j < i)) ∧
    (∀ (t : TaoM) (exec : String → Except String Nat) (c : List String),
      (t.graph.map Prod.fst).Nodup →
      IsCycle t.graph c →
      t.hasRun = false → t.aborted = false →
      (t.runModel exec).2.1 = .error "Circular dependency detected" ∧
      (t.runModel exec).2.2 = []) := by
  constructor
  · intro zens hnd hclosed hnocycle
    obtain ⟨L, hL⟩ :=
      getExecutionOrderAux_ok_of_acyclic zens hclosed hnocycle _ [] rfl
    have hnodup := getExecutionOrderAux_nodup zens hnd _ [] L rfl hL
    refine ⟨L, hL, ?_, ?_⟩
    · intro z hz
      have hmem := getExecutionOrderAux_mem zens _ [] L rfl hL z.1
      have hin : z.1 ∈ L.join :=
        hmem.mpr ⟨List.mem_map.mpr ⟨z, hz, rfl⟩, by simp⟩
      have h1 := List.nodup_iff_count_le_one.mp hnodup z.1
      have h2 := List.count_pos_iff.mpr hin
      omega
    · intro z hz d hd i hi j hj hzi hdj
      have hdeps := getExecutionOrderAux_deps zens hnd _ [] L rfl hL z hz i hi
        hzi d hd
      rcases hdeps with hv | ⟨j2, hj2, hj2i, hdj2⟩
      · exact absurd hv (List.not_mem_nil d)
      · have := nodup_join_get_unique hnodup hj hj2 hdj hdj2
        omega
  · intro t exec c hnd hc hrun hab
    have herr2 : getExecutionOrder t.graph =
        .error "Circular dependency detected" :=
      getExecutionOrderAux_error_of_cycle t.graph hnd hc _ [] rfl (by simp)
    constructor <;> simp [TaoM.runModel, hrun, hab, TaoM.graph] at herr2 ⊢ <;>
      rw [herr2]

/-- Witness for `C1_execution_order_correct`: the diamond `a ← b` graph is
batched correctly, and a two-step cyclic graph makes `run` reject without
invoking any step. -/
theorem C1_execution_order_correct_witness :
    (∃ L, getExecutionOrder [("a", ([] : List String)), ("b", ["a"])] =
        .ok L ∧
      (∀ z ∈ [("a", ([] : List String)), ("b", ["a"])],
        L.join.count z.1 = 1) ∧
      (∀ z ∈ [("a", ([] : List String)), ("b", ["a"])], ∀ d ∈ z.2,
        ∀ (i : Nat) (hi : i < L.length) (j : Nat) (hj : j < L.length),
        z.1 ∈ L.get ⟨i, hi⟩ → d ∈ L.get ⟨j, hj⟩ → j < i)) ∧
    ((({ zens := [{ id := "a", name := "A", deps := ["b"] },
                  { id := "b", name := "B", deps := ["a"] }] } :
        TaoM).runModel (fun _ => .ok 0)).2.1 =
      .error "Circular dependency detected" ∧
     (({ zens := [{ id := "a", name := "A", deps := ["b"] },
                  { id := "b", name := "B", deps := ["a"] }] } :
        TaoM).runModel (fun _ => .ok 0)).2.2 = []) := by
  constructor
  · exact C1_execution_order_correct.1 _ (by decide) (by decide)
      (no_cycle_of_rank _ (fun s => if s = "b" then 1 else 0) (by decide))
  · refine C1_execution_order_correct.2 _ _ ["a", "b"] (by decide) ?_ rfl rfl
    refine ⟨by decide, ?_⟩
    show List.Chain (hasEdge _) "a" ["b", "a"]
    refine List.Chain.cons ?_ (List.Chain.cons ?_ List.Chain.nil)
    · exact ⟨("a", ["b"]), by decide, rfl, by decide⟩
    · exact ⟨("b", ["a"]), by decide, rfl, by decide⟩

/-- Looking a step up in an id-preserving rewrite of the step list rewrites
the looked-up step. -/
theorem lookupZen_map (f : ZenM → ZenM) (hf : ∀ z, (f z).id = z.id) :
    ∀ (zens : List ZenM) (zid : String),
      lookupZen (zens.map f) zid = (lookupZen zens zid).map f := by
  intro zens zid
  induction zens with
  | nil => rfl
  | cons a t ihz =>
    simp only [List.map_cons, lookupZen, List.find?_cons, hf]
    by_cases ha : a.id = zid
    · simp [ha]
    · rw [decide_eq_false ha]
      exact ihz

/-- A successful lookup returns a step carrying the looked-up id. -/
theorem lookupZen_id {zens : List ZenM} {zid : String} {z : ZenM}
    (h : lookupZen zens zid = some z) : z.id = zid := by
  have := List.find?_some h
  simpa using this

/-- With duplicate-free ids, looking up a member's id returns that member. -/
theorem lookupZen_self {zens : List ZenM} (hnd : (zens.map ZenM.id).Nodup) :
    ∀ {z : ZenM}, z ∈ zens → lookupZen zens z.id = some z := by
  induction zens with
  | nil => intro z hz; exact absurd hz (List.not_mem_nil z)
  | cons a t ihz =>
    intro z hz
    simp only [List.map_cons, List.nodup_cons] at hnd
    rcases List.mem_cons.mp hz with rfl | hzt
    · simp [lookupZen, List.find?_cons]
    · have hne : a.id ≠ z.id := by
        intro heq
        exact hnd.1 (heq ▸ List.mem_map.mpr ⟨z, hzt, rfl⟩)
      simp only [lookupZen, List.find?_cons]
      rw [decide_eq_false hne]
      exact ihz hnd.2 hzt

/-- Updating a step via `setZenCompleted` leaves steps with a different id untouched. -/
theorem lookupZen_setZenCompleted_ne {zens : List ZenM} {zid wid : String}
    {v : Nat} (hne : zid ≠ wid) :
    lookupZen (setZenCompleted zens wid v) zid = lookupZen zens zid := by
  rw [setZenCompleted, lookupZen_map _ (fun z => by by_cases h : z.id = wid <;>
    simp [h]) zens zid]
  cases h : lookupZen zens zid with
  | none => rfl
  | some z =>
    have hid := lookupZen_id h
    simp [hid, hne]

/-- The accumulators of `runZenList` only grow. -/
theorem runZenList_mono (exec : String → Except String Nat) (skip : Bool) :
    ∀ (ids : List String) (zens : List ZenM)
      (res : List (String × Option Nat)) (inv : List String),
      ∃ r2 i2,
        (runZenList exec skip ids zens res inv).2.1 = res ++ r2 ∧
        (runZenList exec skip ids zens res inv).2.2.1 = inv ++ i2 := by
  intro ids
  induction ids with
  | nil => intro zens res inv; exact ⟨[], [], by simp [runZenList],
      by simp [runZenList]⟩
  | cons zid rest ihr =>
    intro zens res inv
    rw [runZenList]
    cases hl : lookupZen zens zid with
    | none => exact ⟨[], [], by simp, by simp⟩
    | some z =>
      dsimp only
      by_cases hskip : skip = true ∧ z.status = .completed
      · rw [if_pos hskip]
        obtain ⟨r2, i2, hr, hi⟩ := ihr zens (res ++ [(zid, z.value)]) inv
        exact ⟨(zid, z.value) :: r2, i2, by simpa using hr, hi⟩
      · rw [if_neg hskip]
        cases he : exec zid with
        | ok v =>
          obtain ⟨r2, i2, hr, hi⟩ := ihr (setZenCompleted zens zid v)
            (res ++ [(zid, some v)]) (inv ++ [zid])
          exact ⟨(zid, some v) :: r2, zid :: i2, by simpa using hr,
            by simpa using hi⟩
        | error e => exact ⟨[], zid :: [], by simp, by simp⟩

/-- Frame property of a successful skip-completed batch execution: a step that
is `completed` at the start is never touched — it keeps its exact state, its
cached value is added to the result map when its id is scheduled, and it is
never invoked. -/
theorem runZenList_completed_frame (exec : String → Except String Nat) :
    ∀ (ids : List String) (zens : List ZenM)
      (res : List (String × Option Nat)) (inv : List String)
      (zfin : List ZenM) (rfin : List (String × Option Nat))
      (ifin : List String),
      runZenList exec true ids zens res inv = (zfin, rfin, ifin, none) →
      ∀ (zid : String) (z : ZenM), lookupZen zens zid = some z →
        z.status = .completed →
        lookupZen zfin zid = some z ∧
        (zid ∈ ids → (zid, z.value) ∈ rfin) ∧
        (zid ∉ inv → zid ∉ ifin) := by
  intro ids
  induction ids with
  | nil =>
    intro zens res inv zfin rfin ifin hrun zid z hlz hzc
    rw [runZenList] at hrun
    obtain ⟨rfl, rfl, rfl, -⟩ := Prod.mk.injEq .. ▸ (by
      simpa using hrun : zens = zfin ∧ res = rfin ∧ inv = ifin)
    exact ⟨hlz, by simp, fun h => h⟩
  | cons zid0 rest ihr =>
    intro zens res inv zfin rfin ifin hrun zid z hlz hzc
    rw [runZenList] at hrun
    cases hl : lookupZen zens zid0 with
    | none => rw [hl] at hrun; simp at hrun
    | some w =>
      rw [hl] at hrun
      dsimp only at hrun
      by_cases hw : w.status = .completed
      · rw [if_pos ⟨rfl, hw⟩] at hrun
        by_cases heq : zid = zid0
        · subst heq
          have hwz : w = z := by rw [hl] at hlz; exact Option.some.inj hlz
          subst hwz
          obtain ⟨hlook, _, hinvp⟩ := ihr _ _ _ _ _ _ hrun zid w hlz hzc
          refine ⟨hlook, fun _ => ?_, hinvp⟩
          obtain ⟨r2, _, hr, _⟩ := runZenList_mono exec true rest zens
            (res ++ [(zid, w.value)]) inv
          rw [hrun] at hr
          simp only at hr
          rw [hr]
          simp
        · obtain ⟨hlook, hmem, hinvp⟩ := ihr _ _ _ _ _ _ hrun zid z hlz hzc
          exact ⟨hlook,
            fun hin => hmem (Or.resolve_left (List.mem_cons.mp hin) heq),
            hinvp⟩
      · rw [if_neg (by simp [hw])] at hrun
        cases he : exec zid0 with
        | error e => rw [he] at hrun; simp at hrun
        | ok v =>
          rw [he] at hrun
          dsimp only at hrun
          by_cases heq : zid = zid0
          · subst heq
            have hwz : w = z := by rw [hl] at hlz; exact Option.some.inj hlz
            subst hwz
            exact absurd hzc hw
          · have hlz2 : lookupZen (setZenCompleted zens zid0 v) zid = some z
                := by rw [lookupZen_setZenCompleted_ne heq]; exact hlz
            obtain ⟨hlook, hmem, hinvp⟩ := ihr _ _ _ _ _ _ hrun zid z hlz2 hzc
            refine ⟨hlook,
              fun hin => hmem (Or.resolve_left (List.mem_cons.mp hin) heq),
              fun hnin => hinvp ?_⟩
            simp only [List.mem_append, List.mem_singleton]
            rintro (h | h)
            · exact hnin h
            · exact heq h

/-- Liveness of a successful skip-completed batch execution: a scheduled step
that is not `completed` at the start is invoked. -/
theorem runZenList_noncompleted_invoked (exec : String → Except String Nat) :
    ∀ (ids : List String) (zens : List ZenM)
      (res : List (String × Option Nat)) (inv : List String)
      (zfin : List ZenM) (rfin : List (String × Option Nat))
      (ifin : List String),
      runZenList exec true ids zens res inv = (zfin, rfin, ifin, none) →
      ∀ (zid : String) (z : ZenM), zid ∈ ids →
        lookupZen zens zid = some z → z.status ≠ .completed →
        zid ∈ ifin := by
  intro ids
  induction ids with
  | nil =>
    intro _ _ _ _ _ _ _ zid z hin
    exact fun _ _ => absurd hin (List.not_mem_nil zid)
  | cons zid0 rest ihr =>
    intro zens res inv zfin rfin ifin hrun zid z hin hlz hzc
    rw [runZenList] at hrun
    cases hl : lookupZen zens zid0 with
    | none => rw [hl] at hrun; simp at hrun
    | some w =>
      rw [hl] at hrun
      dsimp only at hrun
      by_cases hw : w.status = .completed
      · rw [if_pos ⟨rfl, hw⟩] at hrun
        rcases List.mem_cons.mp hin with rfl | hinr
        · rw [hl] at hlz
          cases Option.some.inj hlz
          exact absurd hw hzc
        · exact ihr _ _ _ _ _ _ hrun zid z hinr hlz hzc
      · rw [if_neg (by simp [hw])] at hrun
        cases he : exec zid0 with
        | error e => rw [he] at hrun; simp at hrun
        | ok v =>
          rw [he] at hrun
          dsimp only at hrun
          by_cases heq : zid = zid0
          · subst heq
            obtain ⟨_, i2, _, hi⟩ := runZenList_mono exec true rest
              (setZenCompleted zens zid v) (res ++ [(zid, some v)])
              (inv ++ [zid])
            rw [hrun] at hi
            simp only at hi
            rw [hi]
            simp
          · have hlz2 : lookupZen (setZenCompleted zens zid0 v) zid = some z
                := by rw [lookupZen_setZenCompleted_ne heq]; exact hlz
            exact ihr _ _ _ _ _ _ hrun zid z
              (Or.resolve_left (List.mem_cons.mp hin) heq) hlz2 hzc

/-- Batch execution composes over concatenation of the schedule. -/
theorem runZenList_append (exec : String → Except String Nat) (skip : Bool) :
    ∀ (l1 l2 : List String) (zens : List ZenM)
      (res : List (String × Option Nat)) (inv : List String),
      runZenList exec skip (l1 ++ l2) zens res inv =
        match runZenList exec skip l1 zens res inv with
        | (z1, r1, i1, none) => runZenList exec skip l2 z1 r1 i1
        | (z1, r1, i1, some e) => (z1, r1, i1, some e) := by
  intro l1
  induction l1 with
  | nil => intro l2 zens res inv; rfl
  | cons zid0 rest ihl =>
    intro l2 zens res inv
    rw [List.cons_append, runZenList, runZenList]
    cases hl : lookupZen zens zid0 with
    | none => rfl
    | some w =>
      dsimp only
      by_cases hsk : skip = true ∧ w.status = .completed
      · rw [if_pos hsk, if_pos hsk]
        exact ihl l2 zens (res ++ [(zid0, w.value)]) inv
      · rw [if_neg hsk, if_neg hsk]
        cases he : exec zid0 with
        | ok v =>
          dsimp only
          exact ihl l2 (setZenCompleted zens zid0 v)
            (res ++ [(zid0, some v)]) (inv ++ [zid0])
        | error e => rfl

/-- The per-batch loop of `run`/`retry` is the same as executing the flattened
schedule. -/
theorem runLayers_eq_join (exec : String → Except String Nat) (skip : Bool) :
    ∀ (layers : List (List String)) (zens : List ZenM)
      (res : List (String × Option Nat)) (inv : List String),
      runLayers exec skip layers zens res inv =
        runZenList exec skip layers.join zens res inv := by
  intro layers
  induction layers with
  | nil => intro zens res inv; rfl
  | cons b bs ihl =>
    intro zens res inv
    simp only [List.join_cons]
    rw [runZenList_append, runLayers]
    cases hb : runZenList exec skip b zens res inv with
    | mk z1 rest1 =>
      rcases rest1 with ⟨r1, i1, e1⟩
      cases e1 with
      | none => exact ihl z1 r1 i1
      | some e => rfl

/-- Claim C6: (a) `retry()` rejects with the invalid-state error whenever the
graph status is neither `failed` nor `cancelled`; (b) on a successful retry
from `failed`/`cancelled` with `retryFailedZensOnly` set, every step that was
already `completed` is not reset (its state is untouched in the final
graph), its wrapped function is not re-invoked, and its cached result
appears in the returned result map, while every `failed`/`cancelled` step is
re-executed. -/
theorem C6_retry_guard_and_cache :
    (∀ (t : TaoM) (exec : String → Except String Nat),
      ¬(t.status = .failed ∨ t.status = .cancelled) →
      t.retryModel exec =
        (t, .error "Only failed or cancelled tasks can be retried", [])) ∧
    (∀ (t : TaoM) (exec : String → Except String Nat) (t' : TaoM)
      (results : List (String × Option Nat)) (invoked : List String),
      (t.status = .failed ∨ t.status = .cancelled) →
      t.registered = true → t.retryFailedZensOnly = true →
      (t.zens.map ZenM.id).Nodup →
      t.retryModel exec = (t', .ok results, invoked) →
      ∀ z ∈ t.zens,
        (z.status = .completed →
          z.id ∉ invoked ∧ (z.id, z.value) ∈ results ∧
          lookupZen t'.zens z.id = some z) ∧
        ((z.status = .failed ∨ z.status = .cancelled) → z.id ∈ invoked)) := by
  constructor
  · intro t exec h
    rw [TaoM.retryModel, if_pos h]
  · intro t exec t' results invoked hst hreg hflag hnd hret z hz
    rw [TaoM.retryModel, if_neg (not_not_intro hst),
      if_neg (by simp [hreg])] at hret
    simp only [hflag] at hret
    split at hret
    · exact absurd hret (by simp)
    · rename_i layers heq1
      split at hret
      · rename_i zens2 r2 i2 heq2
        simp only [Prod.mk.injEq, Except.ok.injEq] at hret
        obtain ⟨ht', hres, hinv⟩ := hret
        subst hres
        subst hinv
        have hfId : ∀ w : ZenM,
            ((fun w => if w.status = .failed ∨ w.status = .cancelled then
              w.reset else w) w).id = w.id := by
          intro w
          by_cases h : w.status = .failed ∨ w.status = .cancelled <;>
            simp [h, ZenM.reset]
        have hzens1 : retryResetZens true t.zens =
            t.zens.map (fun w => if w.status = .failed ∨
              w.status = .cancelled then w.reset else w) := by
          rw [retryResetZens, if_pos rfl]
        have hlookt : lookupZen t.zens z.id = some z := lookupZen_self hnd hz
        have hlook1 : lookupZen (retryResetZens true t.zens) z.id =
            some (if z.status = .failed ∨ z.status = .cancelled then
              z.reset else z) := by
          rw [hzens1, lookupZen_map _ hfId, hlookt]
          rfl
        have heq1a : getExecutionOrderAux
            ({ t with aborted := false,
                      zens := retryResetZens true t.zens,
                      runningZens := [], pauseActive := false,
                      status := .running } : TaoM).graph [] = .ok layers :=
          heq1
        have hcov : z.id ∈ layers.join := by
          apply (getExecutionOrderAux_mem _ _ [] layers rfl heq1a z.id).mpr
          refine ⟨?_, by simp⟩
          show z.id ∈ ((retryResetZens true t.zens).map
            (fun w => (w.id, w.deps))).map Prod.fst
          rw [List.map_map]
          have hmem1 : (if z.status = .failed ∨ z.status = .cancelled then
              z.reset else z) ∈ retryResetZens true t.zens := by
            rw [hzens1]
            exact List.mem_map.mpr ⟨z, hz, rfl⟩
          exact List.mem_map.mpr ⟨_, hmem1, hfId z⟩
        rw [runLayers_eq_join] at heq2
        constructor
        · intro hcomp
          have hfz : (if z.status = .failed ∨ z.status = .cancelled then
              z.reset else z) = z := by
            simp [hcomp]
          rw [hfz] at hlook1
          obtain ⟨hlookfin, hmemres, hninv⟩ := runZenList_completed_frame
            exec layers.join (retryResetZens true t.zens) [] [] zens2 r2 i2
            heq2 z.id z hlook1 hcomp
          refine ⟨hninv (by simp), hmemres hcov, ?_⟩
          rw [← ht']
          exact hlookfin
        · intro hfc
          have hfz : (if z.status = .failed ∨ z.status = .cancelled then
              z.reset else z) = z.reset := by
            rw [if_pos hfc]
          rw [hfz] at hlook1
          exact runZenList_noncompleted_invoked exec layers.join
            (retryResetZens true t.zens) [] [] zens2 r2 i2 heq2 z.id z.reset
            hcov hlook1 (by simp [ZenM.reset])
      · exact absurd hret (by simp)

/-- The success path of `Tao.retry`, exposed as an equation: with the status
and registration guards passed, a successful layering and a clean batch run
give back the completed graph, the result map and the executed steps. -/
theorem retryModel_ok (t : TaoM) (exec : String → Except String Nat)
    (layers : List (List String)) (zens2 : List ZenM)
    (r2 : List (String × Option Nat)) (i2 : List String)
    (h1 : t.status = .failed ∨ t.status = .cancelled)
    (h2 : t.registered = true)
    (hord : getExecutionOrder
      ({ t with aborted := false,
                zens := retryResetZens t.retryFailedZensOnly t.zens,
                runningZens := [], pauseActive := false,
                status := .running } : TaoM).graph = .ok layers)
    (hrun : runLayers exec t.retryFailedZensOnly layers
      (retryResetZens t.retryFailedZensOnly t.zens) [] [] =
      (zens2, r2, i2, none)) :
    t.retryModel exec =
      ({ t with aborted := false, zens := zens2, runningZens := [],
                pauseActive := false, status := .completed }, .ok r2, i2)
    := by
  rw [TaoM.retryModel, if_neg (not_not_intro h1), if_neg (by simp [h2])]
  simp only [hord, hrun]

/-- Witness for `C6_retry_guard_and_cache`: a running graph cannot retry, and
on a concrete failed graph with a completed step `a` (cached value 1) and a
failed step `b`, retrying with `retryFailedZensOnly` caches `a`, re-executes
only `b`, and returns both results. -/
theorem C6_retry_guard_and_cache_witness :
    (({ zens := [], status := .running } : TaoM).retryModel (fun _ => .ok 0) =
      ({ zens := [], status := .running },
       .error "Only failed or cancelled tasks can be retried", [])) ∧
    (("a" : String) ∉ (["b"] : List String) ∧
      (("a" : String), (some 1 : Option Nat)) ∈
        [(("a" : String), (some 1 : Option Nat)), ("b", some 2)] ∧
      lookupZen [{ id := "a", name := "A", status := .completed,
                   value := some 1 },
                 { id := "b", name := "B", status := .completed,
                   value := some 2 }] "a" =
        some { id := "a", name := "A", status := .completed,
               value := some 1 }) ∧
    ("b" : String) ∈ (["b"] : List String) := by
  have hord0 : getExecutionOrderAux
      [(("a" : String), ([] : List String)), ("b", [])] [] =
      .ok [["a", "b"]] := by
    rw [getExecutionOrderAux, if_neg (by decide), dif_neg (by decide)]
    rw [show getExecutionOrderAux
        [(("a" : String), ([] : List String)), ("b", [])]
        ([] ++ assignable [(("a" : String), ([] : List String)), ("b", [])] [])
        = .ok [] from by
      rw [getExecutionOrderAux, if_pos (by decide)]]
    rw [show assignable [(("a" : String), ([] : List String)), ("b", [])] []
        = ["a", "b"] from by decide]
  have hret := retryModel_ok
    { zens := [{ id := "a", name := "A", status := .completed,
                 value := some 1 },
               { id := "b", name := "B", status := .failed,
                 error := some "boom" }],
      status := .failed, registered := true, retryFailedZensOnly := true }
    (fun zid => if zid = "b" then .ok 2 else .ok 0)
    [["a", "b"]]
    [{ id := "a", name := "A", status := .completed, value := some 1 },
     { id := "b", name := "B", status := .completed, value := some 2 }]
    [("a", some 1), ("b", some 2)] ["b"]
    (Or.inl rfl) rfl hord0 (by decide)
  have happ := C6_retry_guard_and_cache.2
    { zens := [{ id := "a", name := "A", status := .completed,
                 value := some 1 },
               { id := "b", name := "B", status := .failed,
                 error := some "boom" }],
      status := .failed, registered := true, retryFailedZensOnly := true }
    (fun zid => if zid = "b" then .ok 2 else .ok 0)
    _ _ _ (Or.inl rfl) rfl rfl (by decide) hret
  refine ⟨C6_retry_guard_and_cache.1 _ _ (by decide), ?_, ?_⟩
  · exact (happ
      { id := "a", name := "A", status := .completed, value := some 1 }
      (by simp)).1 rfl
  · exact (happ
      { id := "b", name := "B", status := .failed, error := some "boom" }
      (by simp)).2 (Or.inl rfl)
